import Mathlib

/-!
Shallow embedding of `py2c/tree/node_gen.py`: the `.tree`-declaration
compiler (lexer, grammar parser, semantic checks, source generator and the
per-file orchestration step), together with theorems settling the frozen
claims about it.

Modelling conventions:
* Python strings are Lean `String`s; the lexer and `remove_comments` work
  on `List Char` (`String.data`).
* The ply-generated lexer/parser is embedded as a hand-rolled scanner and
  recursive-descent parser over the same token language.  ply tries the
  lexer rules in the order: `t_newline`, `t_INHERIT` (the literal word
  `inherit`, by longest-regex-first ordering), `t_NAME` (a maximal run of
  word characters), then single-character literals, with spaces and tabs
  skipped; an unmatched character raises `ParserError` carrying the
  remaining text.  The embedding reproduces exactly this order, including
  ply's quirk that `inherit` matches as a keyword even when followed by
  more word characters (so `inheritance` lexes as INHERIT + NAME `ance`).
* ply parses LALR(1) with semantic actions at reduction time; for this
  unambiguous grammar the recursive-descent embedding performs the same
  reductions in the same left-to-right order on every token stream that
  lexes, so all declaration-level outcomes coincide.  (ply lexes lazily,
  so on a text with a lexical error *after* a semantic error the two can
  report different errors; no claim concerns such texts.)
* Exceptions are an explicit `Except ParserError` result; the constructor
  payloads carry exactly the data interpolated into the Python messages,
  and `ParserError.message` reproduces the message text.
* `\w` is modelled as ASCII letters, digits and underscore (the inputs in
  all claims are ASCII).
-/

namespace NodeGen

/-- Token kinds produced by the ply lexer: the INHERIT keyword, NAME
identifiers, and the nine single-character literals `()[]:*?+,`. -/
inductive Tok where
  | inherit : Tok
  | name : String → Tok
  | lparen : Tok
  | rparen : Tok
  | lbrack : Tok
  | rbrack : Tok
  | colon : Tok
  | star : Tok
  | question : Tok
  | plus : Tok
  | comma : Tok
deriving DecidableEq, Repr

/-- The data carried by each `ParserError` raised in `node_gen.py`:
`lexError` from `t_error` (the remaining input text), `unexpectedToken`
from `p_error` (`none` at end of input, where ply passes `None`), and the
three semantic errors raised in `p_declaration`. -/
inductive ParserError where
  | lexError : String → ParserError
  | unexpectedToken : Option Tok → ParserError
  | duplicateName : String → ParserError
  | duplicateFields : String → List String → ParserError
  | missingParent : String → ParserError
deriving DecidableEq, Repr

instance {ε α : Type} [DecidableEq ε] [DecidableEq α] : DecidableEq (Except ε α) := fun x y =>
  match x, y with
  | .error a, .error b =>
      if h : a = b then .isTrue (by rw [h]) else .isFalse (by simp [h])
  | .ok a, .ok b =>
      if h : a = b then .isTrue (by rw [h]) else .isFalse (by simp [h])
  | .error _, .ok _ => .isFalse (by simp)
  | .ok _, .error _ => .isFalse (by simp)

/-- Python `repr` of an identifier-like string (no quote or backslash can
occur in a `\w+` match, so no escaping is needed). -/
def pyRepr (s : String) : String := "'" ++ s ++ "'"

/-- The message text of each exception, as formatted in `node_gen.py`.
For `unexpectedToken`, ply's `str(t)` also prints the token's position;
only the token-independent part is reproduced here, and for `lexError`
the `repr` of the remaining text is rendered without escaping (faithful
whenever that text needs none); no claim concerns either message's exact
text. -/
def ParserError.message : ParserError → String
  | .lexError remaining => "Unable to generate tokens from: " ++ pyRepr remaining
  | .unexpectedToken _ => "Unexpected token"
  | .duplicateName n => "Multiple declarations of name " ++ pyRepr n
  | .duplicateFields node dups =>
      "Multiple declarations in " ++ pyRepr node ++ " of attribute" ++
        (if 1 < dups.length then "s" else "") ++ " " ++
        pyRepr (String.intercalate ", " dups)
  | .missingParent n =>
      "Inheriting nodes need parents to inherit from. See definition of " ++ pyRepr n

/-- A word character for `t_NAME`'s regex `\w+` (ASCII fragment). -/
def isWordChar (c : Char) : Bool := c.isAlphanum || c = '_'

/-- The token for a single-character literal of `self.literals = "()[]:*?+,"`,
or `none` when the character is not a literal. -/
def litTok : Char → Option Tok
  | '(' => some .lparen
  | ')' => some .rparen
  | '[' => some .lbrack
  | ']' => some .rbrack
  | ':' => some .colon
  | '*' => some .star
  | '?' => some .question
  | '+' => some .plus
  | ',' => some .comma
  | _ => none

/-- Core of the lexer.  `acc` holds the word characters of the identifier
currently being scanned, in reverse.  At the start of a token (empty
`acc`) the keyword pattern `inherit` is tried before the identifier
pattern, exactly as ply orders the master regex; spaces, tabs and
newlines are skipped (`t_ignore`, `t_newline`); any other character not
among the literals raises `t_error` with the remaining text. -/
def lexAux : List Char → List Char → Except ParserError (List Tok)
  | [], [] => .ok []
  | a :: acc, [] => .ok [Tok.name (String.mk (a :: acc).reverse)]
  | [], 'i' :: 'n' :: 'h' :: 'e' :: 'r' :: 'i' :: 't' :: rest =>
      (lexAux [] rest).map (Tok.inherit :: ·)
  | acc, c :: rest =>
      if isWordChar c then
        lexAux (c :: acc) rest
      else
        let pending : List Tok :=
          match acc with
          | [] => []
          | a :: as_ => [Tok.name (String.mk (a :: as_).reverse)]
        if c = ' ' || c = '\t' || c = '\n' then
          (lexAux [] rest).map (pending ++ ·)
        else
          match litTok c with
          | some tk => (lexAux [] rest).map (fun ts => pending ++ tk :: ts)
          | none => .error (.lexError (String.mk (c :: rest)))

/-- The lexer: `ply.lex` over the token rules of `Parser.__init__`. -/
def lex (s : String) : Except ParserError (List Tok) := lexAux [] s.data

/-- Core of `remove_comments`: `re.sub(r"(?m)\#.*($|\n)", "", text)` deletes
from each `#` to the end of its line; the multiline `$` matches before the
newline, so the newline itself survives.  The flag is true while skipping
the remainder of a commented line. -/
def removeCommentsAux : Bool → List Char → List Char
  | _, [] => []
  | b, c :: rest =>
      if b then
        if c = '\n' then '\n' :: removeCommentsAux false rest
        else removeCommentsAux true rest
      else
        if c = '#' then removeCommentsAux true rest
        else c :: removeCommentsAux false rest

/-- Removes all text after a `#` in all lines of the text (`remove_comments`). -/
def remove_comments (text : String) : String :=
  String.mk (removeCommentsAux false text.data)

/-- A parsed field triple as stored in a `Definition` and consumed by the
generator: `(name, type, modifier)`, each a Python string (the modifier is
one of `"NEEDED"`, `"OPTIONAL"`, `"ZERO_OR_MORE"`, `"ONE_OR_MORE"`). -/
abbrev Field := String × String × String

/-- The `fields` slot of a `Definition`: either the string `'inherit'`
(from the bare keyword) or a concrete list of field triples. -/
inductive Fields where
  | inherit : Fields
  | list : List Field → Fields
deriving DecidableEq, Repr

/-- The result of parsing one declaration:
`Definition = collections.namedtuple("Definition", "name parent fields")`. -/
structure Definition where
  name : String
  parent : Option String
  fields : Fields
deriving DecidableEq, Repr

/-- Grammar rule `p_modifier`: a leading `?`, `+` or `*` token maps to the
corresponding modifier string, anything else (the empty production) to
`"NEEDED"`.  Returns the modifier and the unconsumed tokens. -/
def p_modifier : List Tok → String × List Tok
  | .plus :: rest => ("ONE_OR_MORE", rest)
  | .star :: rest => ("ZERO_OR_MORE", rest)
  | .question :: rest => ("OPTIONAL", rest)
  | toks => ("NEEDED", toks)

/-- Grammar rule `p_field : NAME modifier NAME`, with the reduction
`p[0] = (p[3], p[1], p[2])`: surface order (type, modifier, field-name)
is stored as `(field-name, type, modifier)`. -/
def p_field (toks : List Tok) : Except ParserError (Field × List Tok) :=
  match toks with
  | .name ty :: rest1 =>
      match p_modifier rest1 with
      | (m, .name nm :: rest2) => .ok ((nm, ty, m), rest2)
      | (_, bad :: _) => .error (.unexpectedToken (some bad))
      | (_, []) => .error (.unexpectedToken none)
  | bad :: _ => .error (.unexpectedToken (some bad))
  | [] => .error (.unexpectedToken none)

theorem p_modifier_length (toks : List Tok) : (p_modifier toks).2.length ≤ toks.length := by
  match toks with
  | [] => simp [p_modifier]
  | t :: rest => cases t <;> simp [p_modifier]

theorem p_field_length {toks : List Tok} {f : Field} {rest : List Tok}
    (h : p_field toks = .ok (f, rest)) : rest.length < toks.length := by
  unfold p_field at h
  split at h
  · rename_i ty rest1
    split at h
    · rename_i m nm rest2 heq
      simp only [Except.ok.injEq, Prod.mk.injEq] at h
      obtain ⟨-, rfl⟩ := h
      have := p_modifier_length rest1
      rw [heq] at this
      simp at this ⊢
      omega
    · simp at h
    · simp at h
  · simp at h
  · simp at h

/-- Grammar rules `p_field_list` / `p_more_fields_maybe` for a non-empty
list: one field, then further `, field` groups, with an optional trailing
comma (accepted just before the closing `]`). -/
def parseFields1 (toks : List Tok) : Except ParserError (List Field × List Tok) :=
  match h : p_field toks with
  | .error e => .error e
  | .ok (f, .comma :: .rbrack :: rest2) => .ok ([f], .rbrack :: rest2)
  | .ok (f, .comma :: rest2) =>
      match parseFields1 rest2 with
      | .error e => .error e
      | .ok (fs, rest3) => .ok (f :: fs, rest3)
  | .ok (f, rest) => .ok ([f], rest)
termination_by toks.length
decreasing_by
  have := p_field_length h
  simp at this ⊢
  omega

/-- Grammar rule `p_field_list` including its `empty` production (applied
when the next token is the closing `]`). -/
def p_field_list (toks : List Tok) : Except ParserError (List Field × List Tok) :=
  match toks with
  | .rbrack :: _ => .ok ([], toks)
  | _ => parseFields1 toks

/-- Grammar rule `p_fields`: either the INHERIT keyword (value `'inherit'`)
or a bracketed field list. -/
def p_fields (toks : List Tok) : Except ParserError (Fields × List Tok) :=
  match toks with
  | .inherit :: rest => .ok (.inherit, rest)
  | .lbrack :: rest =>
      match p_field_list rest with
      | .error e => .error e
      | .ok (fs, .rbrack :: rest2) => .ok (.list fs, rest2)
      | .ok (_, bad :: _) => .error (.unexpectedToken (some bad))
      | .ok (_, []) => .error (.unexpectedToken none)
  | bad :: _ => .error (.unexpectedToken (some bad))
  | [] => .error (.unexpectedToken none)

/-- Grammar rule `p_parent_class_opt`: `( NAME )` yields the parent name,
the empty production yields `None`. -/
def p_parent_class_opt (toks : List Tok) : Except ParserError (Option String × List Tok) :=
  match toks with
  | .lparen :: .name n :: .rparen :: rest => .ok (some n, rest)
  | .lparen :: .name _ :: bad :: _ => .error (.unexpectedToken (some bad))
  | .lparen :: .name _ :: [] => .error (.unexpectedToken none)
  | .lparen :: bad :: _ => .error (.unexpectedToken (some bad))
  | .lparen :: [] => .error (.unexpectedToken none)
  | _ => .ok (none, toks)

/-- Grammar rule `p_colon_fields_opt`: `: fields`, or the empty production
whose value is the empty (concrete) field list `[]`. -/
def p_colon_fields_opt (toks : List Tok) : Except ParserError (Fields × List Tok) :=
  match toks with
  | .colon :: rest => p_fields rest
  | _ => .ok (.list [], toks)

/-- The duplicate-collection loop of `p_declaration`: walks the field
names, appending a name to the result each time it has been seen before
(so a name occurring `k` times contributes `k - 1` entries, in occurrence
order). -/
def duplicatedLoop (seenFields : List String) : List String → List String
  | [] => []
  | n :: rest =>
      if n ∈ seenFields then n :: duplicatedLoop seenFields rest
      else duplicatedLoop (n :: seenFields) rest

/-- The `duplicated_fields` list computed in `p_declaration` for the given
field names. -/
def duplicated_fields (names : List String) : List String := duplicatedLoop [] names

/-- The semantic checks of the `p_declaration` reduction, given the set of
already-declared node names: a repeated node name is an error; for a
concrete field list, repeated field names are an error; for the inherit
marker, a missing parent is an error. -/
def p_declaration (seen : List String) (name : String) (parent : Option String)
    (fields : Fields) : Except ParserError Definition :=
  if name ∈ seen then .error (.duplicateName name)
  else
    match fields with
    | .list fs =>
        let dups := duplicated_fields (fs.map (·.1))
        if dups = [] then .ok ⟨name, parent, fields⟩
        else .error (.duplicateFields name dups)
    | .inherit =>
        match parent with
        | none => .error (.missingParent name)
        | some _ => .ok ⟨name, parent, fields⟩

/-- Syntactic parse of one `declaration : NAME parent_class_opt
colon_fields_opt` (the semantic checks of `p_declaration` are applied by
the caller, as at ply's reduction time). -/
def parseDeclaration (toks : List Tok) :
    Except ParserError ((String × Option String × Fields) × List Tok) :=
  match toks with
  | .name n :: rest =>
      match p_parent_class_opt rest with
      | .error e => .error e
      | .ok (parent, rest1) =>
          match p_colon_fields_opt rest1 with
          | .error e => .error e
          | .ok (fields, rest2) => .ok ((n, parent, fields), rest2)
  | bad :: _ => .error (.unexpectedToken (some bad))
  | [] => .error (.unexpectedToken none)

theorem parseFields1_length_aux : ∀ (n : Nat) (toks : List Tok), toks.length ≤ n →
    ∀ {fs : List Field} {rest : List Tok},
      parseFields1 toks = .ok (fs, rest) → rest.length < toks.length := by
  intro n
  induction n with
  | zero =>
    intro toks hlen fs rest h
    have : toks = [] := by cases toks <;> simp_all
    subst this
    rw [parseFields1.eq_def] at h
    split at h <;> simp_all [p_field]
  | succ n ih =>
    intro toks hlen fs rest h
    rw [parseFields1.eq_def] at h
    split at h
    · simp at h
    · rename_i f rest2 heq
      simp only [Except.ok.injEq, Prod.mk.injEq] at h
      obtain ⟨-, rfl⟩ := h
      have := p_field_length heq
      simp at this ⊢
      omega
    · rename_i f rest2 hne heq
      split at h
      · simp at h
      · rename_i fs2 rest3 hrec
        simp only [Except.ok.injEq, Prod.mk.injEq] at h
        obtain ⟨-, rfl⟩ := h
        have h1 := p_field_length heq
        simp at h1
        have h2 := ih rest2 (by omega) hrec
        omega
    · rename_i f rest0 hne1 hne2 heq
      simp only [Except.ok.injEq, Prod.mk.injEq] at h
      obtain ⟨-, rfl⟩ := h
      exact p_field_length heq

theorem parseFields1_length {toks : List Tok} {fs : List Field} {rest : List Tok}
    (h : parseFields1 toks = .ok (fs, rest)) : rest.length < toks.length :=
  parseFields1_length_aux toks.length toks le_rfl h

theorem p_field_list_length {toks : List Tok} {fs : List Field} {rest : List Tok}
    (h : p_field_list toks = .ok (fs, rest)) : rest.length ≤ toks.length := by
  match toks with
  | .rbrack :: rest0 => simp [p_field_list] at h; simp [h.2]
  | [] => exact le_of_lt (parseFields1_length h)
  | .inherit :: r => exact le_of_lt (parseFields1_length h)
  | .name n :: r => exact le_of_lt (parseFields1_length h)
  | .lparen :: r => exact le_of_lt (parseFields1_length h)
  | .rparen :: r => exact le_of_lt (parseFields1_length h)
  | .lbrack :: r => exact le_of_lt (parseFields1_length h)
  | .colon :: r => exact le_of_lt (parseFields1_length h)
  | .star :: r => exact le_of_lt (parseFields1_length h)
  | .question :: r => exact le_of_lt (parseFields1_length h)
  | .plus :: r => exact le_of_lt (parseFields1_length h)
  | .comma :: r => exact le_of_lt (parseFields1_length h)

theorem p_fields_length {toks : List Tok} {fs : Fields} {rest : List Tok}
    (h : p_fields toks = .ok (fs, rest)) : rest.length < toks.length := by
  match toks with
  | [] => simp [p_fields] at h
  | t :: rest0 =>
    cases t <;> simp [p_fields] at h
    case inherit => simp [h.2]
    case lbrack =>
      rcases hfl : p_field_list rest0 with e | ⟨fs2, rest2⟩ <;> rw [hfl] at h
      · simp at h
      · have hle := p_field_list_length hfl
        match rest2 with
        | [] => simp at h
        | t2 :: rest3 =>
          cases t2 <;> simp at h
          case rbrack =>
            obtain ⟨-, rfl⟩ := h
            simp at hle ⊢
            omega

theorem p_parent_class_opt_length {toks : List Tok} {p : Option String} {rest : List Tok}
    (h : p_parent_class_opt toks = .ok (p, rest)) : rest.length ≤ toks.length := by
  unfold p_parent_class_opt at h
  split at h <;> simp only [Except.ok.injEq, Prod.mk.injEq, reduceCtorEq] at h
  · obtain ⟨-, rfl⟩ := h
    simp
    omega
  · obtain ⟨-, rfl⟩ := h
    exact le_rfl

theorem p_colon_fields_opt_length {toks : List Tok} {fs : Fields} {rest : List Tok}
    (h : p_colon_fields_opt toks = .ok (fs, rest)) : rest.length ≤ toks.length := by
  unfold p_colon_fields_opt at h
  split at h
  · rename_i rest0
    have := p_fields_length h
    simp at this ⊢
    omega
  · simp only [Except.ok.injEq, Prod.mk.injEq] at h
    obtain ⟨-, rfl⟩ := h
    exact le_rfl

theorem parseDeclaration_length {toks : List Tok} {d : String × Option String × Fields}
    {rest : List Tok} (h : parseDeclaration toks = .ok (d, rest)) :
    rest.length < toks.length := by
  unfold parseDeclaration at h
  split at h
  · rename_i n rest0
    split at h
    · simp at h
    · rename_i parent rest1 hp
      split at h
      · simp at h
      · rename_i fields rest2 hc
        simp only [Except.ok.injEq, Prod.mk.injEq] at h
        obtain ⟨-, rfl⟩ := h
        have h1 := p_parent_class_opt_length hp
        have h2 := p_colon_fields_opt_length hc
        simp
        omega
  · simp at h
  · simp at h

/-- The `zero_or_more_declaration` loop with `p_declaration`'s semantic
checks applied as each declaration reduces; `seen` is
`self.seen_node_names`, extended after each successful name check. -/
def parseDeclarations (seen : List String) (toks : List Tok) :
    Except ParserError (List Definition) :=
  match toks with
  | [] => .ok []
  | t0 :: ts0 =>
      match h : parseDeclaration (t0 :: ts0) with
      | .error e => .error e
      | .ok ((n, parent, fields), rest) =>
          match p_declaration seen n parent fields with
          | .error e => .error e
          | .ok defn =>
              match parseDeclarations (n :: seen) rest with
              | .error e => .error e
              | .ok defs => .ok (defn :: defs)
termination_by toks.length
decreasing_by
  have := parseDeclaration_length h
  simp at this ⊢
  omega

namespace Parser

/-- `Parser.parse`: reset the seen-name set, strip comments, lex, and run
the grammar with semantic checks. -/
def parse (text : String) : Except ParserError (List Definition) :=
  match lex (remove_comments text) with
  | .error e => .error e
  | .ok toks => parseDeclarations [] toks

end Parser

/-- The `PREFIX` constant of `node_gen.py` after `dedent(...).strip()`:
the auto-generated-file banner and the import of the node-base support
names, with no leading or trailing newline. -/
def PREFIX : String :=
  String.intercalate "\n"
    [ "# " ++ String.mk (List.replicate 77 '-')
    , "# This file is auto-generated by ``py2c.tree.node_gen``."
    , "#"
    , "# Instead of modifying this file, modify the relevant \"*.tree\" file"
    , "# in py2c/tree directory of the source distribution."
    , "# " ++ String.mk (List.replicate 77 '-')
    , "# ANY CHANGES YOU MAKE IN THIS FILE DIRECTLY WILL BE LOST."
    , "# " ++ String.mk (List.replicate 77 '-')
    , ""
    , "from . import Node, identifier, fields_decorator  # noqa" ]

/-- `_prettify_list`: the empty list renders as the literal `[]`; a
non-empty list renders as an opening bracket, one line
`({name!r}, {type}, {modifier!r}),` per field at three indents, and a
closing bracket at two indents, joined by newlines. -/
def _prettify_list (li : List Field) : String :=
  let indent := "    "
  if li = [] then "[]"
  else
    String.intercalate "\n"
      (["["] ++
        li.map (fun f =>
          indent ++ indent ++ indent ++
            "(" ++ pyRepr f.1 ++ ", " ++ f.2.1 ++ ", " ++ pyRepr f.2.2 ++ "),") ++
        [indent ++ indent ++ "]"])

namespace SourceGenerator

/-- `SourceGenerator.generate_class`: the `class <name>(<parent or
object>):` header and either a bare `pass` body (inherit marker) or the
`_fields` method returning the prettified field list.  Python's
`definition.parent or "object"` also substitutes `object` for an *empty*
parent string (falsy), which the modelling reproduces although the lexer
can never produce an empty name. -/
def generate_class (definition : Definition) : String :=
  let class_declaration :=
    "class " ++ definition.name ++ "(" ++
      (match definition.parent with
       | some p => if p = "" then "object" else p
       | none => "object") ++ "):\n"
  let field_declaration :=
    match definition.fields with
    | .inherit => "    pass"
    | .list fs =>
        "    @fields_decorator\n    def _fields(cls):\n        return " ++
          _prettify_list fs
  class_declaration ++ field_declaration

/-- `SourceGenerator.generate_sources`: collect the class texts in input
order (the `for` loop) and join them with `"\n\n\n"` (two blank lines
between consecutive class declarations; no newline is appended here —
the caller writes the final newline). -/
def generate_sources (data : List Definition) : String :=
  let classes := data.foldl (fun acc node => acc ++ [generate_class node]) []
  String.intercalate "\n\n\n" classes

end SourceGenerator

/-- The full text that `generate` writes to an output file for one parsed
declaration file: `PREFIX`, a separator of two blank lines, the generated
classes, and the final newline (the four `outfile.write` calls). -/
def output_text (defs : List Definition) : String :=
  PREFIX ++ "\n\n\n" ++ SourceGenerator.generate_sources defs ++ "\n"

/-- One iteration of `generate`'s per-file loop, over an abstract state of
the one target output file: `existing` is its current content (`none`
when the file does not exist), `update` the update flag, `inText` the
declaration file's text.  The result is the output file's content after
the iteration (`.ok`; unchanged on skip), or the exception that aborts
the batch (`.error`; nothing was written, the file keeps `existing`). -/
def generate_one (update : Bool) (infile_name : String) (existing : Option String)
    (inText : String) : Except String (Option String) :=
  if existing.isSome && !update then .ok existing
  else
    match Parser.parse inText with
    | .error _ =>
        .error ("Could not auto-generate sources for " ++ pyRepr infile_name)
    | .ok defs => .ok (some (output_text defs))

/-! ### Surface syntax

Token-level images of well-formed declarations, used to quantify claims
over every declaration file (modulo lexing, which the concrete examples
exercise): a `RawField` is the surface triple (type, modifier suffix,
field name), a `RawClause` a declaration's optional `:`-clause, a
`RawDecl` one declaration. -/

/-- The four surface forms of a field modifier. -/
inductive ModSuffix where
  | bare : ModSuffix
  | question : ModSuffix
  | plus : ModSuffix
  | star : ModSuffix
deriving DecidableEq, Repr

/-- The token emitted for a modifier suffix (none for `bare`). -/
def modToks : ModSuffix → List Tok
  | .bare => []
  | .question => [.question]
  | .plus => [.plus]
  | .star => [.star]

/-- The modifier string each surface form reduces to in `p_modifier`. -/
def modValue : ModSuffix → String
  | .bare => "NEEDED"
  | .question => "OPTIONAL"
  | .plus => "ONE_OR_MORE"
  | .star => "ZERO_OR_MORE"

/-- A field as written: type name, modifier suffix, field name — in this
surface order. -/
structure RawField where
  ty : String
  suffix : ModSuffix
  fname : String
deriving DecidableEq, Repr

/-- The token sequence of one surface field. -/
def RawField.toks (f : RawField) : List Tok :=
  .name f.ty :: (modToks f.suffix ++ [.name f.fname])

/-- The stored triple for a surface field: `(field name, type, modifier)`. -/
def RawField.reorder (f : RawField) : Field := (f.fname, f.ty, modValue f.suffix)

/-- The token sequence of a comma-separated field list (no trailing comma). -/
def fieldListToks : List RawField → List Tok
  | [] => []
  | [f] => f.toks
  | f :: g :: rest => f.toks ++ .comma :: fieldListToks (g :: rest)

/-- A declaration's optional `:`-clause: absent, the inherit keyword, or a
bracketed field list. -/
inductive RawClause where
  | absent : RawClause
  | inheritKw : RawClause
  | list : List RawField → RawClause
deriving DecidableEq, Repr

/-- The token sequence of a clause. -/
def clauseToks : RawClause → List Tok
  | .absent => []
  | .inheritKw => [.colon, .inherit]
  | .list fs => .colon :: .lbrack :: (fieldListToks fs ++ [.rbrack])

/-- The `Fields` value a clause parses to. -/
def clauseFields : RawClause → Fields
  | .absent => .list []
  | .inheritKw => .inherit
  | .list fs => .list (fs.map RawField.reorder)

/-- One declaration as written: name, optional parent, optional clause. -/
structure RawDecl where
  name : String
  parent : Option String
  clause : RawClause
deriving DecidableEq, Repr

/-- The token sequence of an optional parent annotation. -/
def parentToks : Option String → List Tok
  | none => []
  | some p => [.lparen, .name p, .rparen]

/-- The token sequence of one declaration. -/
def RawDecl.toks (d : RawDecl) : List Tok :=
  .name d.name :: (parentToks d.parent ++ clauseToks d.clause)

/-- The token sequence of a whole declaration file. -/
def declsToks : List RawDecl → List Tok
  | [] => []
  | d :: rest => d.toks ++ declsToks rest

/-- Reference semantics of the parser on a well-formed declaration
sequence: run `p_declaration`'s checks on each declaration in order,
threading the seen-name set. -/
def processDecls (seen : List String) : List RawDecl → Except ParserError (List Definition)
  | [] => .ok []
  | d :: rest =>
      match p_declaration seen d.name d.parent (clauseFields d.clause) with
      | .error e => .error e
      | .ok defn =>
          match processDecls (d.name :: seen) rest with
          | .error e => .error e
          | .ok defs => .ok (defn :: defs)

/-! ### Round-trip lemmas: the parser on the token image of well-formed
declarations. -/

theorem p_modifier_toks (m : ModSuffix) (s : String) (rest : List Tok) :
    p_modifier (modToks m ++ Tok.name s :: rest) = (modValue m, Tok.name s :: rest) := by
  cases m <;> simp [modToks, modValue, p_modifier]

theorem p_field_toks (f : RawField) (rest : List Tok) :
    p_field (f.toks ++ rest) = .ok (f.reorder, rest) := by
  obtain ⟨ty, suffix, fname⟩ := f
  cases suffix <;>
    simp [RawField.toks, RawField.reorder, modToks, modValue, p_field, p_modifier]

theorem parseFields1_toks (fs : List RawField) :
    ∀ (f : RawField) (rest : List Tok), rest.head? ≠ some Tok.comma →
      parseFields1 (fieldListToks (f :: fs) ++ rest) =
        .ok ((f :: fs).map RawField.reorder, rest) := by
  induction fs with
  | nil =>
    intro f rest h
    rw [parseFields1.eq_def]
    split
    · rename_i e heq
      rw [fieldListToks] at heq
      rw [p_field_toks] at heq
      simp at heq
    · rename_i f' rest2 heq
      rw [fieldListToks] at heq
      rw [p_field_toks] at heq
      simp at heq
      obtain ⟨-, heq⟩ := heq
      rw [heq] at h
      simp at h
    · rename_i f' rest2 hne heq
      rw [fieldListToks] at heq
      rw [p_field_toks] at heq
      simp at heq
      obtain ⟨-, heq⟩ := heq
      rw [heq] at h
      simp at h
    · rename_i f' rest' hne1 hne2 heq
      rw [fieldListToks] at heq
      rw [p_field_toks] at heq
      simp at heq
      obtain ⟨rfl, rfl⟩ := heq
      simp
  | cons g gs ih =>
    intro f rest h
    have hsplit : fieldListToks (f :: g :: gs) ++ rest =
        f.toks ++ (Tok.comma :: (fieldListToks (g :: gs) ++ rest)) := by
      rw [fieldListToks]
      simp
    rw [hsplit, parseFields1.eq_def]
    split
    · rename_i e heq
      rw [p_field_toks] at heq
      simp at heq
    · rename_i f' rest2 heq
      rw [p_field_toks] at heq
      simp at heq
      obtain ⟨-, heq⟩ := heq
      exfalso
      cases gs with
      | nil =>
          rw [fieldListToks] at heq
          obtain ⟨ty, suffix, fname⟩ := g
          cases suffix <;> simp [RawField.toks, modToks] at heq
      | cons g2 gs2 =>
          rw [fieldListToks] at heq
          obtain ⟨ty, suffix, fname⟩ := g
          cases suffix <;> simp [RawField.toks, modToks] at heq
    · rename_i f' rest2 hne heq
      rw [p_field_toks] at heq
      simp at heq
      obtain ⟨hf, heq⟩ := heq
      rw [← heq, ih g rest h]
      simp [hf]
    · rename_i f' rest' hne1 hne2 heq
      rw [p_field_toks] at heq
      simp at heq
      obtain ⟨-, heq⟩ := heq
      exact absurd heq.symm (hne2 _)

theorem p_field_list_toks (fs : List RawField) (rest : List Tok)
    (h : rest.head? = some Tok.rbrack) :
    p_field_list (fieldListToks fs ++ rest) = .ok (fs.map RawField.reorder, rest) := by
  match fs with
  | [] =>
    rw [fieldListToks]
    match rest with
    | Tok.rbrack :: rest2 => simp [p_field_list]
    | [] => simp at h
    | t :: rest2 =>
        simp at h
        rw [h] at *
        simp [p_field_list]
  | f :: fs2 =>
    have hstep := parseFields1_toks fs2 f rest (by rw [h]; simp)
    have hhead : ∃ l, fieldListToks (f :: fs2) ++ rest = Tok.name f.ty :: l := by
      cases fs2 <;> rw [fieldListToks] <;> simp [RawField.toks]
    obtain ⟨l, hl⟩ := hhead
    rw [hl]
    rw [p_field_list]
    · rw [← hl, hstep]
    · simp

theorem p_fields_inherit (rest : List Tok) :
    p_fields (Tok.inherit :: rest) = .ok (.inherit, rest) := by
  simp [p_fields]

theorem p_fields_list (fs : List RawField) (rest : List Tok) :
    p_fields (Tok.lbrack :: (fieldListToks fs ++ Tok.rbrack :: rest)) =
      .ok (.list (fs.map RawField.reorder), rest) := by
  have hfl := p_field_list_toks fs (Tok.rbrack :: rest) (by simp)
  simp [p_fields, hfl]

theorem p_parent_class_opt_some (p : String) (rest : List Tok) :
    p_parent_class_opt (Tok.lparen :: Tok.name p :: Tok.rparen :: rest) =
      .ok (some p, rest) := by
  simp [p_parent_class_opt]

theorem p_parent_class_opt_none (rest : List Tok)
    (h : rest.head? ≠ some Tok.lparen) :
    p_parent_class_opt rest = .ok (none, rest) := by
  match rest with
  | [] => simp [p_parent_class_opt]
  | t :: rest2 =>
      cases t <;> simp [p_parent_class_opt]
      simp at h

theorem p_colon_fields_opt_absent (rest : List Tok)
    (h : rest.head? ≠ some Tok.colon) :
    p_colon_fields_opt rest = .ok (.list [], rest) := by
  match rest with
  | [] => simp [p_colon_fields_opt]
  | t :: rest2 =>
      cases t <;> simp [p_colon_fields_opt]
      simp at h

theorem p_colon_fields_opt_toks (c : RawClause) (rest : List Tok)
    (h : rest.head? ≠ some Tok.colon) :
    p_colon_fields_opt (clauseToks c ++ rest) = .ok (clauseFields c, rest) := by
  match c with
  | .absent => rw [clauseToks]; simp [clauseFields, p_colon_fields_opt_absent rest h]
  | .inheritKw =>
      rw [clauseToks, clauseFields]
      simp [p_colon_fields_opt, p_fields_inherit]
  | .list fs =>
      rw [clauseToks, clauseFields]
      have hfl := p_fields_list fs rest
      simp only [List.cons_append, List.append_assoc, List.singleton_append] at hfl ⊢
      simp [p_colon_fields_opt, hfl]

/-- The condition under which the tokens after a declaration do not
interfere with its optional productions: the remainder is empty or starts
the next declaration (a NAME token). -/
def declFollows (rest : List Tok) : Prop :=
  rest = [] ∨ ∃ s rest2, rest = Tok.name s :: rest2

theorem declFollows_not_lparen {rest : List Tok} (h : declFollows rest) :
    rest.head? ≠ some Tok.lparen := by
  rcases h with rfl | ⟨s, rest2, rfl⟩ <;> simp

theorem declFollows_not_colon {rest : List Tok} (h : declFollows rest) :
    rest.head? ≠ some Tok.colon := by
  rcases h with rfl | ⟨s, rest2, rfl⟩ <;> simp

theorem clause_append_not_colon (c : RawClause) {rest : List Tok}
    (h : declFollows rest) : (clauseToks c ++ rest).head? ≠ some Tok.colon ∨ c ≠ .absent := by
  match c with
  | .absent => exact Or.inl (by rw [clauseToks]; simpa using declFollows_not_colon h)
  | .inheritKw => exact Or.inr (by simp)
  | .list fs => exact Or.inr (by simp)

theorem parseDeclaration_toks (d : RawDecl) (rest : List Tok) (h : declFollows rest) :
    parseDeclaration (d.toks ++ rest) =
      .ok ((d.name, d.parent, clauseFields d.clause), rest) := by
  obtain ⟨n, parent, c⟩ := d
  have hclause : p_colon_fields_opt (clauseToks c ++ rest) = .ok (clauseFields c, rest) := by
    refine p_colon_fields_opt_toks c rest (declFollows_not_colon h)
  have hparent : p_parent_class_opt (parentToks parent ++ (clauseToks c ++ rest)) =
      .ok (parent, clauseToks c ++ rest) := by
    match parent with
    | some p => rw [parentToks]; simpa using p_parent_class_opt_some p _
    | none =>
        rw [parentToks]
        simp only [List.nil_append]
        refine p_parent_class_opt_none _ ?_
        match c with
        | .absent =>
            rw [clauseToks]
            simpa using declFollows_not_lparen h
        | .inheritKw => rw [clauseToks]; simp
        | .list fs => rw [clauseToks]; simp
  rw [RawDecl.toks]
  simp only [List.cons_append, List.append_assoc]
  rw [parseDeclaration]
  simp only [List.append_assoc] at hparent
  rw [hparent]
  simp [hclause]

theorem parseDeclarations_toks (ds : List RawDecl) :
    ∀ (seen : List String), parseDeclarations seen (declsToks ds) = processDecls seen ds := by
  induction ds with
  | nil => intro seen; rw [declsToks, parseDeclarations, processDecls]
  | cons d rest ih =>
    intro seen
    have hfollows : declFollows (declsToks rest) := by
      match rest with
      | [] => exact Or.inl (by rw [declsToks])
      | d2 :: rest2 =>
          refine Or.inr ⟨d2.name, parentToks d2.parent ++ clauseToks d2.clause ++ declsToks rest2, ?_⟩
          rw [declsToks, RawDecl.toks]
          simp
    have hdecl : parseDeclaration
        (Tok.name d.name :: (parentToks d.parent ++ (clauseToks d.clause ++ declsToks rest))) =
        .ok ((d.name, d.parent, clauseFields d.clause), declsToks rest) := by
      have := parseDeclaration_toks d (declsToks rest) hfollows
      rw [RawDecl.toks] at this
      simpa using this
    have hts : declsToks (d :: rest) =
        Tok.name d.name :: (parentToks d.parent ++ (clauseToks d.clause ++ declsToks rest)) := by
      rw [declsToks, RawDecl.toks]
      simp
    rw [hts, parseDeclarations.eq_def]
    split
    · simp_all
    · rename_i t0 ts0 hcons
      split
      · rename_i e heq
        rw [← hcons] at heq
        rw [hdecl] at heq
        simp at heq
      · rename_i n parent fields rest2 heq
        rw [← hcons] at heq
        rw [hdecl] at heq
        simp only [Except.ok.injEq, Prod.mk.injEq] at heq
        obtain ⟨⟨rfl, rfl, rfl⟩, rfl⟩ := heq
        rw [processDecls]
        rcases hpd : p_declaration seen d.name d.parent (clauseFields d.clause) with e | defn
        · simp
        · simp only
          rw [ih (d.name :: seen)]

/-! ### Semantic helper lemmas -/

theorem p_declaration_dup {seen : List String} {name : String} (parent : Option String)
    (fields : Fields) (h : name ∈ seen) :
    p_declaration seen name parent fields = .error (.duplicateName name) := by
  simp [p_declaration, h]

theorem p_declaration_ok_not_seen {seen : List String} {name : String}
    {parent : Option String} {fields : Fields} {defn : Definition}
    (h : p_declaration seen name parent fields = .ok defn) :
    name ∉ seen ∧ defn.name = name := by
  by_cases hmem : name ∈ seen
  · rw [p_declaration_dup parent fields hmem] at h
    simp at h
  · refine ⟨hmem, ?_⟩
    unfold p_declaration at h
    rw [if_neg hmem] at h
    split at h
    · dsimp only at h
      split at h
      · simp only [Except.ok.injEq] at h
        rw [← h]
      · simp at h
    · split at h
      · simp at h
      · simp only [Except.ok.injEq] at h
        rw [← h]

theorem parseDeclarations_nodup_aux : ∀ (n : Nat) (toks : List Tok), toks.length ≤ n →
    ∀ {seen : List String} {defs : List Definition},
      parseDeclarations seen toks = .ok defs →
      (defs.map Definition.name).Nodup ∧ ∀ x ∈ defs.map Definition.name, x ∉ seen := by
  intro n
  induction n with
  | zero =>
    intro toks hlen seen defs h
    have : toks = [] := by cases toks <;> simp_all
    subst this
    rw [parseDeclarations.eq_def] at h
    simp at h
    subst h
    simp
  | succ n ih =>
    intro toks hlen seen defs h
    rw [parseDeclarations.eq_def] at h
    split at h
    · simp at h
      subst h
      simp
    · rename_i t0 ts0
      split at h
      · simp at h
      · rename_i nm parent fields rest hdecl
        split at h
        · simp at h
        · rename_i defn hpd
          split at h
          · simp at h
          · rename_i defs2 hrest
            simp only [Except.ok.injEq] at h
            have hlen2 : rest.length ≤ n := by
              have hlt := parseDeclaration_length hdecl
              simp at hlt hlen
              omega
            have hih := ih rest hlen2 hrest
            have hok := p_declaration_ok_not_seen hpd
            rw [← h]
            constructor
            · simp only [List.map_cons, List.nodup_cons]
              refine ⟨?_, hih.1⟩
              intro hmem
              have := hih.2 _ hmem
              simp [hok.2] at this
            · intro x hx
              simp only [List.map_cons, List.mem_cons] at hx
              rcases hx with rfl | hx
              · rw [hok.2]; exact hok.1
              · have := hih.2 x hx
                intro hxseen
                exact this (List.mem_cons_of_mem _ hxseen)

/-- Every successful parse returns definitions with pairwise-distinct
names whose names avoid the initial seen set. -/
theorem parseDeclarations_nodup {seen : List String} {toks : List Tok}
    {defs : List Definition} (h : parseDeclarations seen toks = .ok defs) :
    (defs.map Definition.name).Nodup ∧ ∀ x ∈ defs.map Definition.name, x ∉ seen :=
  parseDeclarations_nodup_aux toks.length toks le_rfl h

/-- The seen-name accumulator after processing a declaration prefix. -/
def seenAfter (ds : List RawDecl) (seen : List String) : List String :=
  ds.foldl (fun s d => d.name :: s) seen

theorem seenAfter_mem (ds : List RawDecl) (seen : List String) (x : String) :
    x ∈ seenAfter ds seen ↔ x ∈ ds.map RawDecl.name ∨ x ∈ seen := by
  induction ds generalizing seen with
  | nil => simp [seenAfter]
  | cons d rest ih =>
      simp only [seenAfter, List.foldl_cons] at *
      rw [ih (d.name :: seen)]
      simp only [List.map_cons, List.mem_cons]
      tauto

theorem processDecls_append (l1 l2 : List RawDecl) (seen : List String) :
    processDecls seen (l1 ++ l2) =
      match processDecls seen l1 with
      | .error e => .error e
      | .ok defs1 =>
          match processDecls (seenAfter l1 seen) l2 with
          | .error e => .error e
          | .ok defs2 => .ok (defs1 ++ defs2)
  := by
  induction l1 generalizing seen with
  | nil =>
      simp only [List.nil_append, seenAfter, List.foldl_nil]
      rw [processDecls]
      match processDecls seen l2 with
      | .error e => simp
      | .ok defs2 => simp
  | cons d rest ih =>
      simp only [List.cons_append]
      rw [processDecls, processDecls]
      match p_declaration seen d.name d.parent (clauseFields d.clause) with
      | .error e => simp
      | .ok defn =>
          simp only
          rw [ih (d.name :: seen)]
          have hsa : seenAfter (d :: rest) seen = seenAfter rest (d.name :: seen) := by
            simp [seenAfter]
          rw [hsa]
          rcases h1 : processDecls (d.name :: seen) rest with e | defs1
          · simp [h1]
          · rcases h2 : processDecls (seenAfter rest (d.name :: seen)) l2 with e2 | defs2 <;>
              simp [h1, h2]

/-! ### Counting lemmas for `duplicated_fields` -/

theorem duplicatedLoop_count (l : List String) :
    ∀ (seenF : List String) (x : String),
      (duplicatedLoop seenF l).count x =
        if x ∈ seenF then l.count x else l.count x - 1 := by
  induction l with
  | nil => intro seenF x; simp [duplicatedLoop]
  | cons n rest ih =>
    intro seenF x
    rw [duplicatedLoop]
    by_cases hn : n ∈ seenF
    · rw [if_pos hn]
      by_cases hxn : x = n
      · subst hxn
        rw [if_pos hn, List.count_cons_self, List.count_cons_self]
        have h1 := ih seenF x
        rw [if_pos hn] at h1
        omega
      · rw [List.count_cons_of_ne hxn, List.count_cons_of_ne hxn, ih seenF x]
    · rw [if_neg hn]
      by_cases hxn : x = n
      · subst hxn
        rw [ih (x :: seenF) x, if_pos (List.mem_cons_self x seenF), if_neg hn,
            List.count_cons_self]
        omega
      · rw [ih (n :: seenF) x, List.count_cons_of_ne hxn]
        by_cases hx : x ∈ seenF
        · rw [if_pos (List.mem_cons_of_mem n hx), if_pos hx]
        · rw [if_neg ?_, if_neg hx]
          simp only [List.mem_cons, not_or]
          exact ⟨hxn, hx⟩

/-- A name occurring `k` times among the field names contributes exactly
`k - 1` entries to `duplicated_fields`. -/
theorem duplicated_fields_count (names : List String) (x : String) :
    (duplicated_fields names).count x = names.count x - 1 := by
  rw [duplicated_fields, duplicatedLoop_count names [] x, if_neg (List.not_mem_nil x)]

theorem duplicated_fields_mem (names : List String) (x : String) :
    x ∈ duplicated_fields names ↔ 2 ≤ names.count x := by
  rw [← List.count_pos_iff_mem, duplicated_fields_count]
  omega

theorem duplicated_fields_nil_iff (names : List String) :
    duplicated_fields names = [] ↔ names.Nodup := by
  rw [List.nodup_iff_count_le_one]
  constructor
  · intro h x
    by_contra hx
    have h2 : 2 ≤ names.count x := by omega
    have := (duplicated_fields_mem names x).mpr h2
    rw [h] at this
    exact List.not_mem_nil x this
  · intro h
    by_contra hne
    obtain ⟨x, hx⟩ := List.exists_mem_of_ne_nil _ hne
    have := (duplicated_fields_mem names x).mp hx
    have := h x
    omega

/-! ### Idempotence of comment stripping -/

theorem removeCommentsAux_no_hash (l : List Char) :
    ∀ b, '#' ∉ removeCommentsAux b l := by
  induction l with
  | nil => intro b; rw [removeCommentsAux.eq_def]; cases b <;> simp
  | cons c rest ih =>
    intro b
    rw [removeCommentsAux]
    cases b
    · simp only [Bool.false_eq_true, if_false]
      split_ifs with hc
      · exact ih true
      · simp only [List.mem_cons, not_or]
        exact ⟨fun h1 => hc h1.symm, ih false⟩
    · simp only [if_true]
      split_ifs with hc
      · simp only [List.mem_cons, not_or]
        refine ⟨by decide, ih false⟩
      · exact ih true

theorem removeCommentsAux_of_no_hash (l : List Char) (h : '#' ∉ l) :
    removeCommentsAux false l = l := by
  induction l with
  | nil => rw [removeCommentsAux]
  | cons c rest ih =>
    simp only [List.mem_cons, not_or] at h
    rw [removeCommentsAux]
    simp only [Bool.false_eq_true, if_false]
    rw [if_neg (fun hc => h.1 hc.symm)]
    rw [ih h.2]

theorem remove_comments_idem (text : String) :
    remove_comments (remove_comments text) = remove_comments text := by
  unfold remove_comments
  have h1 : (String.mk (removeCommentsAux false text.data)).data =
      removeCommentsAux false text.data := rfl
  rw [h1, removeCommentsAux_of_no_hash _ (removeCommentsAux_no_hash text.data false)]

/-! ### Lexer round-trip: rendered declaration text lexes to its token
stream, so the grammar-level results transfer to whole texts. -/

theorem lexAux_word_step (c : Char) (hc : isWordChar c = true) (acc : List Char)
    (hacc : acc ≠ []) (l : List Char) :
    lexAux acc (c :: l) = lexAux (c :: acc) l := by
  match acc with
  | a :: as_ =>
    rw [lexAux.eq_def]
    simp [hc]

theorem not_inherit_prefix_of_head (c : Char) (hc : c ≠ 'i') (l : List Char) :
    ¬ ("inherit".data <+: (c :: l)) := by
  rw [show "inherit".data = 'i' :: "nherit".data from rfl, List.cons_prefix_cons]
  rintro ⟨h1, -⟩
  exact hc h1.symm

/-- Reduction of the lexer at the start of a token whose first character
does not open the INHERIT keyword pattern. -/
theorem lexAux_nil_cons (c : Char) (l : List Char)
    (hni : ¬ ("inherit".data <+: (c :: l))) :
    lexAux [] (c :: l) =
      if isWordChar c = true then lexAux [c] l
      else if (c = ' ' || c = '\t' || c = '\n') = true then
        (lexAux [] l).map (([] : List Tok) ++ ·)
      else
        match litTok c with
        | some tk => (lexAux [] l).map (fun ts => [] ++ tk :: ts)
        | none => .error (.lexError (String.mk (c :: l))) := by
  rw [lexAux.eq_def]
  split
  · next heq => simp at heq
  · next a as_ heq => simp at heq
  · next rest2 h1 h2 =>
      exfalso
      apply hni
      refine ⟨rest2, ?_⟩
      rw [h2]
      rfl
  · next acc2 c2 rest2 heq hnm =>
      injection heq with h1 h2
      subst h1
      subst h2
      rfl

theorem lexAux_space (rest : List Char) :
    lexAux [] (' ' :: rest) = lexAux [] rest := by
  rw [lexAux_nil_cons ' ' rest (not_inherit_prefix_of_head ' ' (by decide) rest)]
  rw [if_neg (by decide), if_pos (by decide)]
  rcases lexAux [] rest with e | ts <;> simp [Except.map]

theorem lexAux_lit (c : Char) (tk : Tok) (hl : litTok c = some tk)
    (hni : c ≠ 'i') (hw : isWordChar c = false)
    (hsp : (c = ' ' || c = '\t' || c = '\n') = false) (rest : List Char) :
    lexAux [] (c :: rest) = (lexAux [] rest).map (tk :: ·) := by
  rw [lexAux_nil_cons c rest (not_inherit_prefix_of_head c hni rest)]
  rw [if_neg (by simp [hw]), if_neg (by simp [hsp])]
  rw [hl]
  rcases lexAux [] rest with e | ts <;> rfl

theorem lexAux_word_run (cs : List Char) :
    ∀ (acc : List Char), acc ≠ [] → (∀ c ∈ cs, isWordChar c = true) →
    ∀ rest : List Char,
      lexAux acc (cs ++ ' ' :: rest) =
        (lexAux [] rest).map (Tok.name (String.mk (acc.reverse ++ cs)) :: ·) := by
  induction cs with
  | nil =>
    intro acc hacc hall rest
    match acc with
    | a :: as_ =>
      rw [List.nil_append, lexAux.eq_def]
      simp only [show isWordChar ' ' = false from by decide]
      simp only [Bool.false_eq_true, if_false]
      rcases lexAux [] rest with e | ts <;> simp
  | cons c cs2 ih =>
    intro acc hacc hall rest
    have hc : isWordChar c = true := hall c (by simp)
    rw [List.cons_append, lexAux_word_step c hc acc hacc]
    rw [ih (c :: acc) (by simp) (fun x hx => hall x (by simp [hx]))]
    simp

/-- A string usable as a NAME token in rendered text: non-empty, all word
characters, and not carrying the INHERIT keyword as a prefix (ply lexes
such a string as the keyword followed by a shorter name). -/
def validIdent (s : String) : Prop :=
  s.data ≠ [] ∧ (∀ c ∈ s.data, isWordChar c = true) ∧ ¬ ("inherit".data <+: s.data)

theorem inherit_prefix_break {s : String} (hni : ¬ ("inherit".data <+: s.data))
    (rest : List Char) :
    ¬ ("inherit".data <+: (s.data ++ ' ' :: rest)) := by
  intro h
  have hs : s.data <+: (s.data ++ ' ' :: rest) := List.prefix_append s.data _
  rcases List.prefix_or_prefix_of_prefix h hs with hcase | hcase
  · exact hni hcase
  · obtain ⟨u, hu⟩ := hcase
    obtain ⟨t, ht⟩ := h
    rcases u with _ | ⟨u0, us⟩
    · apply hni
      rw [← hu]
      simp
    · have h2 : s.data ++ (u0 :: us ++ t) = s.data ++ ' ' :: rest := by
        rw [← List.append_assoc, hu]
        exact ht
      have h3 := List.append_cancel_left h2
      injection h3 with h4 h5
      have hmem : u0 ∈ "inherit".data := by
        rw [← hu]
        exact List.mem_append_right _ (by simp)
      rw [h4] at hmem
      revert hmem
      decide

theorem lexAux_name (s : String) (hs : validIdent s) (rest : List Char) :
    lexAux [] (s.data ++ ' ' :: rest) =
      (lexAux [] rest).map (Tok.name s :: ·) := by
  obtain ⟨hne, hall, hni⟩ := hs
  match hd : s.data with
  | [] => exact absurd hd hne
  | c :: cs =>
    rw [List.cons_append]
    have hpref : ¬ ("inherit".data <+: (c :: (cs ++ ' ' :: rest))) := by
      have := inherit_prefix_break hni rest
      rw [hd] at this
      simpa using this
    rw [lexAux_nil_cons c _ hpref]
    rw [if_pos (hall c (by rw [hd]; simp))]
    rw [lexAux_word_run cs [c] (by simp) (fun x hx => hall x (by rw [hd]; simp [hx])) rest]
    have hmk : String.mk (([c] : List Char).reverse ++ cs) = s := by
      simp only [List.reverse_singleton, List.singleton_append]
      rw [← hd]
    rw [hmk]

theorem lexAux_inherit (rest : List Char) :
    lexAux [] ("inherit".data ++ ' ' :: rest) =
      (lexAux [] rest).map (Tok.inherit :: ·) := by
  rw [show "inherit".data ++ ' ' :: rest =
    'i' :: 'n' :: 'h' :: 'e' :: 'r' :: 'i' :: 't' :: (' ' :: rest) from rfl]
  rw [lexAux]
  rw [lexAux_space]

/-- The concrete text of one token in rendered declaration text. -/
def tokText : Tok → String
  | .inherit => "inherit"
  | .name s => s
  | .lparen => "("
  | .rparen => ")"
  | .lbrack => "["
  | .rbrack => "]"
  | .colon => ":"
  | .star => "*"
  | .question => "?"
  | .plus => "+"
  | .comma => ","

/-- Tokens whose rendered text lexes back to themselves: NAME tokens must
carry a valid identifier, the rest always do. -/
def tokOk : Tok → Prop
  | .name s => validIdent s
  | _ => True

/-- Rendered text of a token sequence: each token's text followed by one
space. -/
def renderToks : List Tok → List Char
  | [] => []
  | t :: ts => (tokText t).data ++ ' ' :: renderToks ts

theorem lex_renderToks (toks : List Tok) (h : ∀ t ∈ toks, tokOk t) :
    lexAux [] (renderToks toks) = .ok toks := by
  induction toks with
  | nil => rw [renderToks, lexAux]
  | cons t ts ih =>
    rw [renderToks]
    have hih := ih (fun x hx => h x (by simp [hx]))
    cases t with
    | inherit =>
        simp only [tokText]
        rw [lexAux_inherit, hih]; rfl
    | name s =>
        have hs : validIdent s := h (.name s) (by simp)
        simp only [tokText]
        rw [lexAux_name s hs, hih]; rfl
    | lparen =>
        rw [show (tokText .lparen).data ++ ' ' :: renderToks ts =
          '(' :: (' ' :: renderToks ts) from rfl]
        rw [lexAux_lit '(' .lparen rfl (by decide) (by decide) (by decide),
          lexAux_space, hih]; rfl
    | rparen =>
        rw [show (tokText .rparen).data ++ ' ' :: renderToks ts =
          ')' :: (' ' :: renderToks ts) from rfl]
        rw [lexAux_lit ')' .rparen rfl (by decide) (by decide) (by decide),
          lexAux_space, hih]; rfl
    | lbrack =>
        rw [show (tokText .lbrack).data ++ ' ' :: renderToks ts =
          '[' :: (' ' :: renderToks ts) from rfl]
        rw [lexAux_lit '[' .lbrack rfl (by decide) (by decide) (by decide),
          lexAux_space, hih]; rfl
    | rbrack =>
        rw [show (tokText .rbrack).data ++ ' ' :: renderToks ts =
          ']' :: (' ' :: renderToks ts) from rfl]
        rw [lexAux_lit ']' .rbrack rfl (by decide) (by decide) (by decide),
          lexAux_space, hih]; rfl
    | colon =>
        rw [show (tokText .colon).data ++ ' ' :: renderToks ts =
          ':' :: (' ' :: renderToks ts) from rfl]
        rw [lexAux_lit ':' .colon rfl (by decide) (by decide) (by decide),
          lexAux_space, hih]; rfl
    | star =>
        rw [show (tokText .star).data ++ ' ' :: renderToks ts =
          '*' :: (' ' :: renderToks ts) from rfl]
        rw [lexAux_lit '*' .star rfl (by decide) (by decide) (by decide),
          lexAux_space, hih]; rfl
    | question =>
        rw [show (tokText .question).data ++ ' ' :: renderToks ts =
          '?' :: (' ' :: renderToks ts) from rfl]
        rw [lexAux_lit '?' .question rfl (by decide) (by decide) (by decide),
          lexAux_space, hih]; rfl
    | plus =>
        rw [show (tokText .plus).data ++ ' ' :: renderToks ts =
          '+' :: (' ' :: renderToks ts) from rfl]
        rw [lexAux_lit '+' .plus rfl (by decide) (by decide) (by decide),
          lexAux_space, hih]; rfl
    | comma =>
        rw [show (tokText .comma).data ++ ' ' :: renderToks ts =
          ',' :: (' ' :: renderToks ts) from rfl]
        rw [lexAux_lit ',' .comma rfl (by decide) (by decide) (by decide),
          lexAux_space, hih]; rfl

theorem renderToks_no_hash (toks : List Tok) (h : ∀ t ∈ toks, tokOk t) :
    '#' ∉ renderToks toks := by
  induction toks with
  | nil => rw [renderToks]; simp
  | cons t ts ih =>
    rw [renderToks]
    intro hmem
    rcases List.mem_append.mp hmem with hin | hin
    · cases t with
      | name s =>
          have hs : validIdent s := h (.name s) (by simp)
          have := hs.2.1 '#' hin
          revert this
          decide
      | inherit => revert hin; decide
      | lparen => revert hin; decide
      | rparen => revert hin; decide
      | lbrack => revert hin; decide
      | rbrack => revert hin; decide
      | colon => revert hin; decide
      | star => revert hin; decide
      | question => revert hin; decide
      | plus => revert hin; decide
      | comma => revert hin; decide
    · rcases List.mem_cons.mp hin with heq | hin2
      · exact absurd heq (by decide)
      · exact ih (fun x hx => h x (by simp [hx])) hin2

/-- Rendered text of a declaration file: the token stream of its
declarations, one space after every token. -/
def render (ds : List RawDecl) : String := String.mk (renderToks (declsToks ds))

theorem parse_renderToks (toks : List Tok) (h : ∀ t ∈ toks, tokOk t) :
    Parser.parse (String.mk (renderToks toks)) = parseDeclarations [] toks := by
  have h1 : remove_comments (String.mk (renderToks toks)) = String.mk (renderToks toks) :=
    congrArg String.mk (removeCommentsAux_of_no_hash _ (renderToks_no_hash _ h))
  rw [Parser.parse, h1]
  rw [show lex (String.mk (renderToks toks)) = lexAux [] (renderToks toks) from rfl]
  rw [lex_renderToks _ h]

instance (s : String) : Decidable (validIdent s) := by
  unfold validIdent
  infer_instance

/-- Identifier validity of an optional parent annotation. -/
def parentOk : Option String → Prop
  | none => True
  | some p => validIdent p

instance : ∀ o, Decidable (parentOk o)
  | none => .isTrue trivial
  | some p => (inferInstance : Decidable (validIdent p))

/-- Identifier validity of a clause's field names. -/
def clauseOk : RawClause → Prop
  | .list fs => ∀ f ∈ fs, validIdent f.ty ∧ validIdent f.fname
  | _ => True

instance : ∀ c, Decidable (clauseOk c)
  | .absent => .isTrue trivial
  | .inheritKw => .isTrue trivial
  | .list fs =>
      (inferInstance : Decidable (∀ f ∈ fs, validIdent f.ty ∧ validIdent f.fname))

/-- Identifier validity for one declaration's names. -/
def declIdentsOk (d : RawDecl) : Prop :=
  validIdent d.name ∧ parentOk d.parent ∧ clauseOk d.clause

instance (d : RawDecl) : Decidable (declIdentsOk d) := by
  unfold declIdentsOk
  infer_instance

theorem fieldListToks_tokOk (fs : List RawField)
    (h : ∀ f ∈ fs, validIdent f.ty ∧ validIdent f.fname) :
    ∀ t ∈ fieldListToks fs, tokOk t := by
  induction fs with
  | nil => rw [fieldListToks]; simp
  | cons f fs2 ih =>
    have hf := h f (by simp)
    have htoks : ∀ t ∈ f.toks, tokOk t := by
      intro t ht
      rw [RawField.toks] at ht
      rcases List.mem_cons.mp ht with rfl | ht2
      · exact hf.1
      · rcases List.mem_append.mp ht2 with hm | hm
        · cases hsuf : f.suffix <;> rw [hsuf, modToks] at hm
          · simp at hm
          · rcases List.mem_singleton.mp hm with rfl
            trivial
          · rcases List.mem_singleton.mp hm with rfl
            trivial
          · rcases List.mem_singleton.mp hm with rfl
            trivial
        · rcases List.mem_singleton.mp hm with rfl
          exact hf.2
    match fs2 with
    | [] =>
        rw [fieldListToks]
        exact htoks
    | g :: gs =>
        rw [fieldListToks]
        intro t ht
        rcases List.mem_append.mp ht with hm | hm
        · exact htoks t hm
        · rcases List.mem_cons.mp hm with rfl | hm2
          · trivial
          · exact ih (fun x hx => h x (by simp [hx])) t hm2

theorem declsToks_tokOk (ds : List RawDecl) (h : ∀ d ∈ ds, declIdentsOk d) :
    ∀ t ∈ declsToks ds, tokOk t := by
  induction ds with
  | nil => rw [declsToks]; simp
  | cons d rest ih =>
    rw [declsToks]
    intro t ht
    rcases List.mem_append.mp ht with hm | hm
    · rw [RawDecl.toks] at hm
      have hd := h d (by simp)
      rcases List.mem_cons.mp hm with rfl | hm2
      · exact hd.1
      · rcases List.mem_append.mp hm2 with hp | hc
        · match hpar : d.parent with
          | none => rw [hpar, parentToks] at hp; simp at hp
          | some p =>
              rw [hpar, parentToks] at hp
              have hv : validIdent p := by
                have h21 := hd.2.1
                rw [hpar] at h21
                exact h21
              rcases List.mem_cons.mp hp with rfl | hp2
              · trivial
              · rcases List.mem_cons.mp hp2 with rfl | hp3
                · exact hv
                · rcases List.mem_singleton.mp hp3 with rfl
                  trivial
        · match hcl : d.clause with
          | .absent => rw [hcl, clauseToks] at hc; simp at hc
          | .inheritKw =>
              rw [hcl, clauseToks] at hc
              rcases List.mem_cons.mp hc with rfl | hc2
              · trivial
              · rcases List.mem_singleton.mp hc2 with rfl
                trivial
          | .list fs =>
              rw [hcl, clauseToks] at hc
              rcases List.mem_cons.mp hc with rfl | hc2
              · trivial
              · rcases List.mem_cons.mp hc2 with rfl | hc3
                · trivial
                · rcases List.mem_append.mp hc3 with hm3 | hm4
                  · refine fieldListToks_tokOk fs ?_ t hm3
                    have h22 := hd.2.2
                    rw [hcl] at h22
                    exact h22
                  · rcases List.mem_singleton.mp hm4 with rfl
                    trivial
    · exact ih (fun x hx => h x (by simp [hx])) t hm

/-- Parsing the rendered text of any well-formed declaration file runs
the reference semantics: comment stripping is the identity on it, lexing
returns exactly its token stream, and the grammar parser processes the
declarations in order with the semantic checks. -/
theorem parse_render (ds : List RawDecl) (h : ∀ d ∈ ds, declIdentsOk d) :
    Parser.parse (render ds) = processDecls [] ds := by
  rw [render, parse_renderToks _ (declsToks_tokOk ds h)]
  exact parseDeclarations_toks ds []

/-- A declaration file whose prefix processes fine and which then repeats
an already-declared node name fails with the duplicate-name error. -/
theorem processDecls_dup (pre : List RawDecl) (d : RawDecl) (suf : List RawDecl)
    {defs : List Definition} (hpre : processDecls [] pre = .ok defs)
    (hdup : d.name ∈ pre.map RawDecl.name) :
    processDecls [] (pre ++ d :: suf) = .error (.duplicateName d.name) := by
  rw [processDecls_append pre (d :: suf) [], hpre]
  simp only
  rw [processDecls]
  have hmem : d.name ∈ seenAfter pre [] := by
    rw [seenAfter_mem]
    exact Or.inl hdup
  rw [p_declaration_dup d.parent (clauseFields d.clause) hmem]

/-- A declaration file whose prefix processes fine and which then declares
a fresh node with a duplicated field name fails with the duplicate-fields
error listing the computed duplicates. -/
theorem processDecls_dupfields (pre : List RawDecl) (d : RawDecl) (suf : List RawDecl)
    {defs : List Definition} (hpre : processDecls [] pre = .ok defs)
    (hfresh : d.name ∉ pre.map RawDecl.name) (fs : List RawField)
    (hcl : d.clause = .list fs)
    (hdup : duplicated_fields (fs.map RawField.fname) ≠ []) :
    processDecls [] (pre ++ d :: suf) =
      .error (.duplicateFields d.name (duplicated_fields (fs.map RawField.fname))) := by
  rw [processDecls_append pre (d :: suf) [], hpre]
  simp only
  rw [processDecls]
  have hnot : d.name ∉ seenAfter pre [] := by
    rw [seenAfter_mem]
    simp [hfresh]
  rw [hcl, clauseFields]
  unfold p_declaration
  rw [if_neg hnot]
  dsimp only
  have hmap : (fs.map RawField.reorder).map (fun f => f.1) = fs.map RawField.fname := by
    simp [RawField.reorder]
  rw [hmap, if_neg hdup]

/-! ### Generator helper lemmas -/

theorem foldl_append_map {α β : Type} (g : α → β) (l : List α) :
    ∀ acc : List β, l.foldl (fun a x => a ++ [g x]) acc = acc ++ l.map g := by
  induction l with
  | nil => intro acc; simp
  | cons x rest ih =>
      intro acc
      simp only [List.foldl_cons, List.map_cons]
      rw [ih (acc ++ [g x])]
      simp

theorem generate_sources_eq (data : List Definition) :
    SourceGenerator.generate_sources data =
      String.intercalate "\n\n\n" (data.map SourceGenerator.generate_class) := by
  unfold SourceGenerator.generate_sources
  rw [foldl_append_map]
  simp

theorem duplicatedLoop_sublist (l : List String) :
    ∀ seenF : List String, (duplicatedLoop seenF l).Sublist l := by
  induction l with
  | nil => intro seenF; simp [duplicatedLoop]
  | cons n rest ih =>
      intro seenF
      rw [duplicatedLoop]
      split
      · exact List.Sublist.cons₂ n (ih seenF)
      · exact List.Sublist.cons n (ih (n :: seenF))

theorem parse_remove_comments (text : String) :
    Parser.parse (remove_comments text) = Parser.parse text := by
  unfold Parser.parse
  rw [remove_comments_idem]

end NodeGen

namespace NodeGen

unseal parseFields1 parseDeclarations

/-! ### Claim theorems -/

/-- C1 counterexample: the claim maps absence of a modifier suffix to an
enumeration member named `REQUIRED`, but parsing a field with no suffix
stores the modifier `"NEEDED"` (the enumeration member emitted into the
generated source), which is not `"REQUIRED"`. -/
theorem C1_counterexample :
    Parser.parse "A: [int x]" =
      .ok [⟨"A", none, .list [("x", "int", "NEEDED")]⟩] ∧
    ("NEEDED" : String) ≠ "REQUIRED" := by
  constructor
  · decide
  · decide

/-- C1 (amended): the modifier mapping is `?` to OPTIONAL, `+` to
ONE_OR_MORE, `*` to ZERO_OR_MORE and absence to NEEDED (the code's name
for the default cardinality); the mapping is injective on the four
surface forms (hence a bijection with the four enumeration members), and
in any field list every field's stored modifier is the image of that
field's own suffix, independent of the field's position. -/
theorem C1_modifier_mapping :
    (∀ m₁ m₂ : ModSuffix, modValue m₁ = modValue m₂ → m₁ = m₂) ∧
    (modValue .bare = "NEEDED" ∧ modValue .question = "OPTIONAL" ∧
      modValue .plus = "ONE_OR_MORE" ∧ modValue .star = "ZERO_OR_MORE") ∧
    (∀ (m : ModSuffix) (s : String) (rest : List Tok),
        p_modifier (modToks m ++ Tok.name s :: rest) = (modValue m, Tok.name s :: rest)) ∧
    (∀ (fs : List RawField) (rest : List Tok), rest.head? = some Tok.rbrack →
        p_field_list (fieldListToks fs ++ rest) = .ok (fs.map RawField.reorder, rest)) ∧
    (∀ f : RawField, f.reorder.2.2 = modValue f.suffix) := by
  refine ⟨?_, ⟨rfl, rfl, rfl, rfl⟩, p_modifier_toks, p_field_list_toks, fun f => rfl⟩
  intro m₁ m₂ h
  cases m₁ <;> cases m₂ <;> first | rfl | (simp [modValue] at h)

/-- C1 witness: the amended mapping evaluated at concrete inputs — a
two-field list where only the second field carries `*`. -/
theorem C1_modifier_mapping_witness :
    p_field_list
        (fieldListToks [⟨"int", .bare, "x"⟩, ⟨"stmt", .star, "body"⟩] ++ [Tok.rbrack]) =
      .ok ([("x", "int", "NEEDED"), ("body", "stmt", "ZERO_OR_MORE")], [Tok.rbrack]) := by
  have h := C1_modifier_mapping.2.2.2.1
    [⟨"int", .bare, "x"⟩, ⟨"stmt", .star, "body"⟩] [Tok.rbrack] (by decide)
  simpa using h

/-- C2: a field written as (type-name, modifier, field-name) is stored and
propagated as the triple (field-name, type, modifier): `p_field` returns
exactly that transposition for every surface field wherever it occurs in
a field list, and `_prettify_list` renders each stored triple with the
field name first, the type second and the modifier third. -/
theorem C2_field_transposition :
    (∀ (f : RawField) (rest : List Tok),
        p_field (f.toks ++ rest) = .ok ((f.fname, f.ty, modValue f.suffix), rest)) ∧
    (∀ (fs : List RawField) (rest : List Tok), rest.head? = some Tok.rbrack →
        p_field_list (fieldListToks fs ++ rest) = .ok (fs.map RawField.reorder, rest)) ∧
    (∀ fs : List Field, fs ≠ [] →
        _prettify_list fs = String.intercalate "\n"
          (["["] ++
            fs.map (fun f =>
              "    " ++ "    " ++ "    " ++ "(" ++ ("'" ++ f.1 ++ "'") ++ ", " ++
                f.2.1 ++ ", " ++ ("'" ++ f.2.2 ++ "'") ++ "),") ++
            ["    " ++ "    " ++ "]"])) := by
  refine ⟨fun f rest => p_field_toks f rest, p_field_list_toks, ?_⟩
  intro fs hne
  rw [_prettify_list]
  simp only [if_neg hne, pyRepr]

/-- C2 witness: the transposition evaluated on the concrete surface field
`expr? value` occurring after another field. -/
theorem C2_field_transposition_witness :
    p_field ((RawField.mk "expr" .question "value").toks ++ [Tok.rbrack]) =
      .ok (("value", "expr", "OPTIONAL"), [Tok.rbrack]) ∧
    _prettify_list [("value", "expr", "OPTIONAL")] = String.intercalate "\n"
      (["["] ++
        ["            " ++ "(" ++ "'" ++ "value" ++ "'" ++ ", " ++ "expr" ++ ", " ++
          "'" ++ "OPTIONAL" ++ "'" ++ "),"] ++
        ["        " ++ "]"]) := by
  constructor
  · exact C2_field_transposition.1 (RawField.mk "expr" .question "value") [Tok.rbrack]
  · have h := C2_field_transposition.2.2 [("value", "expr", "OPTIONAL")] (by decide)
    simpa using h

/-- C9: parsing any text gives the same result as parsing the text with
all `#`-to-end-of-line comments removed, because `Parser.parse` strips
comments itself before lexing and comment stripping is idempotent. -/
theorem C9_comment_stripping (text : String) :
    Parser.parse text = Parser.parse (remove_comments text) :=
  (parse_remove_comments text).symm

/-- C10 counterexample: in the claim's scope (several distinct repeated
field names — here `x` thrice and `y` twice), the error does not list
each duplicated name exactly once: `x` is listed twice, so the reported
list is not duplicate-free and differs from the claim's `["x", "y"]`. -/
theorem C10_counterexample :
    Parser.parse "N: [int x, int x, int x, int y, int y]" =
      .error (.duplicateFields "N" ["x", "x", "y"]) ∧
    (["x", "x", "y"] : List String) ≠ ["x", "y"] ∧
    ¬ (["x", "x", "y"] : List String).Nodup := by
  refine ⟨by decide, by decide, by decide⟩

/-- C10 (amended): the single ParseError raised for a declaration with
repeated field names lists every duplicated field name — one entry per
repeated occurrence (a name occurring `k` times appears `k − 1` times),
in occurrence order (the reported list is a sublist of the field-name
sequence) — so every duplicated name is named at least once, not only the
first duplicate encountered, but a name repeated more than twice appears
more than once rather than exactly once. -/
theorem C10_duplicated_fields_multiplicity :
    (∀ (names : List String) (x : String),
        (duplicated_fields names).count x = names.count x - 1) ∧
    (∀ (names : List String) (x : String),
        x ∈ duplicated_fields names ↔ 2 ≤ names.count x) ∧
    (∀ names : List String, (duplicated_fields names).Sublist names) ∧
    (∀ (seen : List String) (name : String) (parent : Option String) (fs : List Field),
        name ∉ seen → duplicated_fields (fs.map (fun f => f.1)) ≠ [] →
        p_declaration seen name parent (.list fs) =
          .error (.duplicateFields name (duplicated_fields (fs.map (fun f => f.1))))) := by
  refine ⟨duplicated_fields_count, duplicated_fields_mem,
    fun names => duplicatedLoop_sublist names [], ?_⟩
  intro seen name parent fs hseen hdups
  unfold p_declaration
  rw [if_neg hseen]
  dsimp only
  rw [if_neg hdups]

/-- C10 witness: the amended description evaluated on the counterexample's
field names. -/
theorem C10_duplicated_fields_multiplicity_witness :
    (duplicated_fields ["x", "x", "x", "y", "y"]).count "x" =
      (["x", "x", "x", "y", "y"] : List String).count "x" - 1 ∧
    ("y" ∈ duplicated_fields ["x", "x", "x", "y", "y"] ↔
      2 ≤ (["x", "x", "x", "y", "y"] : List String).count "y") ∧
    p_declaration [] "N" none
        (.list [("x", "int", "NEEDED"), ("x", "int", "NEEDED"), ("x", "int", "NEEDED"),
          ("y", "int", "NEEDED"), ("y", "int", "NEEDED")]) =
      .error (.duplicateFields "N"
        (duplicated_fields
          (([("x", "int", "NEEDED"), ("x", "int", "NEEDED"), ("x", "int", "NEEDED"),
            ("y", "int", "NEEDED"), ("y", "int", "NEEDED")] : List Field).map
            (fun f => f.1)))) :=
  ⟨C10_duplicated_fields_multiplicity.1 _ "x",
   C10_duplicated_fields_multiplicity.2.1 _ "y",
   C10_duplicated_fields_multiplicity.2.2.2 [] "N" none _ (by decide) (by decide)⟩

/-- C3: a duplicate node name is always a duplicate-name ParseError naming
that name: the `p_declaration` check fires for any repeated name whatever
the parent and fields are; on the token stream — and on the rendered
text — of any declaration file whose prefix parses and which then
re-declares a seen name, the parse fails with exactly that error (so for
identical and for different field lists alike); and no successful parse
of any text can return two definitions with the same name. -/
theorem C3_duplicate_node_name :
    (∀ (seen : List String) (name : String) (parent : Option String) (fields : Fields),
        name ∈ seen →
        p_declaration seen name parent fields = .error (.duplicateName name)) ∧
    (∀ (text : String) (defs : List Definition),
        Parser.parse text = .ok defs → (defs.map Definition.name).Nodup) ∧
    (∀ (pre : List RawDecl) (d : RawDecl) (suf : List RawDecl) (defs : List Definition),
        processDecls [] pre = .ok defs → d.name ∈ pre.map RawDecl.name →
        parseDeclarations [] (declsToks (pre ++ d :: suf)) =
          .error (.duplicateName d.name)) ∧
    (∀ (pre : List RawDecl) (d : RawDecl) (suf : List RawDecl) (defs : List Definition),
        (∀ x ∈ pre ++ d :: suf, declIdentsOk x) →
        processDecls [] pre = .ok defs → d.name ∈ pre.map RawDecl.name →
        Parser.parse (render (pre ++ d :: suf)) = .error (.duplicateName d.name)) := by
  refine ⟨fun seen name parent fields h => p_declaration_dup parent fields h, ?_, ?_, ?_⟩
  · intro text defs h
    unfold Parser.parse at h
    split at h
    · simp at h
    · exact (parseDeclarations_nodup h).1
  · intro pre d suf defs hpre hdup
    rw [parseDeclarations_toks]
    exact processDecls_dup pre d suf hpre hdup
  · intro pre d suf defs hids hpre hdup
    rw [parse_render _ hids]
    exact processDecls_dup pre d suf hpre hdup

/-- C3 witness: the general statements applied to the spec's example —
`A: []` redeclared as `A: [int x]` (different field lists) — and to the
identical-field-list variant. -/
theorem C3_duplicate_node_name_witness :
    p_declaration ["A"] "A" none (.list [("x", "int", "NEEDED")]) =
      .error (.duplicateName "A") ∧
    parseDeclarations []
        (declsToks [⟨"A", none, .list []⟩, ⟨"A", none, .list [⟨"int", .bare, "x"⟩]⟩]) =
      .error (.duplicateName "A") ∧
    parseDeclarations [] (declsToks [⟨"A", none, .list []⟩, ⟨"A", none, .list []⟩]) =
      .error (.duplicateName "A") ∧
    Parser.parse (render [⟨"A", none, .list []⟩, ⟨"A", none, .list [⟨"int", .bare, "x"⟩]⟩]) =
      .error (.duplicateName "A") :=
  ⟨C3_duplicate_node_name.1 ["A"] "A" none (.list [("x", "int", "NEEDED")]) (by decide),
   C3_duplicate_node_name.2.2.1 [⟨"A", none, .list []⟩] ⟨"A", none, .list [⟨"int", .bare, "x"⟩]⟩
     [] [⟨"A", none, .list []⟩] (by decide) (by decide),
   C3_duplicate_node_name.2.2.1 [⟨"A", none, .list []⟩] ⟨"A", none, .list []⟩
     [] [⟨"A", none, .list []⟩] (by decide) (by decide),
   C3_duplicate_node_name.2.2.2 [⟨"A", none, .list []⟩] ⟨"A", none, .list [⟨"int", .bare, "x"⟩]⟩
     [] [⟨"A", none, .list []⟩] (by decide) (by decide) (by decide)⟩

/-- C4: a declaration in inherit form with no parent fails with a
missing-parent error naming the node (for any unseen name); with a parent
it succeeds, and its generated class body is the no-op placeholder
`pass`.  The spec's literal examples `Orphan: inherit` and
`Foo(Bar): inherit` parse accordingly. -/
theorem C4_inherit_requires_parent :
    (∀ (seen : List String) (name : String), name ∉ seen →
        p_declaration seen name none .inherit = .error (.missingParent name)) ∧
    (∀ (seen : List String) (name p : String), name ∉ seen →
        p_declaration seen name (some p) .inherit = .ok ⟨name, some p, .inherit⟩) ∧
    Parser.parse "Orphan: inherit" = .error (.missingParent "Orphan") ∧
    Parser.parse "Foo(Bar): inherit" = .ok [⟨"Foo", some "Bar", .inherit⟩] ∧
    (∀ (name p : String), p ≠ "" →
        SourceGenerator.generate_class ⟨name, some p, .inherit⟩ =
          "class " ++ name ++ "(" ++ p ++ "):\n" ++ "    pass") := by
  refine ⟨?_, ?_, by decide, by decide, ?_⟩
  · intro seen name h
    simp [p_declaration, h]
  · intro seen name p h
    simp [p_declaration, h]
  · intro name p hp
    rw [SourceGenerator.generate_class]
    simp only [if_neg hp]

/-- C4 witness: the general conjuncts evaluated at `Foo` and `Bar`. -/
theorem C4_inherit_requires_parent_witness :
    p_declaration [] "Foo" none .inherit = .error (.missingParent "Foo") ∧
    p_declaration [] "Foo" (some "Bar") .inherit = .ok ⟨"Foo", some "Bar", .inherit⟩ ∧
    SourceGenerator.generate_class ⟨"Foo", some "Bar", .inherit⟩ =
      "class " ++ "Foo" ++ "(" ++ "Bar" ++ "):\n" ++ "    pass" :=
  ⟨C4_inherit_requires_parent.1 [] "Foo" (by decide),
   C4_inherit_requires_parent.2.1 [] "Foo" "Bar" (by decide),
   C4_inherit_requires_parent.2.2.2.2 "Foo" "Bar" (by decide)⟩

/-- C5: a concrete field list with a repeated name (exact string match,
so case-sensitive) makes `p_declaration` fail with a duplicate-fields
error that names exactly the repeated names (a name is reported iff it
occurs at least twice); the inherit form is exempt from the check; on the
rendered text of any declaration file whose prefix parses and whose next
declaration has a repeated field name, parsing fails with that error; the
spec's example `Pair: [int x, int x]` fails naming `x`, while field names
differing only in case parse fine. -/
theorem C5_duplicate_field_names :
    (∀ (seen : List String) (name : String) (parent : Option String) (fs : List Field),
        name ∉ seen → ¬ (fs.map (fun f => f.1)).Nodup →
        p_declaration seen name parent (.list fs) =
          .error (.duplicateFields name (duplicated_fields (fs.map (fun f => f.1)))) ∧
        duplicated_fields (fs.map (fun f => f.1)) ≠ [] ∧
        (∀ x, x ∈ duplicated_fields (fs.map (fun f => f.1)) ↔
          2 ≤ (fs.map (fun f => f.1)).count x)) ∧
    (∀ (seen : List String) (name p : String), name ∉ seen →
        p_declaration seen name (some p) .inherit = .ok ⟨name, some p, .inherit⟩) ∧
    (∀ (pre : List RawDecl) (d : RawDecl) (suf : List RawDecl) (defs : List Definition)
        (fs : List RawField),
        (∀ x ∈ pre ++ d :: suf, declIdentsOk x) →
        processDecls [] pre = .ok defs → d.name ∉ pre.map RawDecl.name →
        d.clause = .list fs → ¬ (fs.map RawField.fname).Nodup →
        Parser.parse (render (pre ++ d :: suf)) =
          .error (.duplicateFields d.name (duplicated_fields (fs.map RawField.fname)))) ∧
    Parser.parse "Pair: [int x, int x]" = .error (.duplicateFields "Pair" ["x"]) ∧
    Parser.parse "Pair: [int x, int X]" =
      .ok [⟨"Pair", none, .list [("x", "int", "NEEDED"), ("X", "int", "NEEDED")]⟩] := by
  refine ⟨?_, ?_, ?_, by decide, by decide⟩
  · intro seen name parent fs hseen hdup
    have hne : duplicated_fields (fs.map (fun f => f.1)) ≠ [] := by
      intro hwrong
      exact hdup ((duplicated_fields_nil_iff _).mp hwrong)
    refine ⟨?_, hne, fun x => duplicated_fields_mem _ x⟩
    unfold p_declaration
    rw [if_neg hseen]
    dsimp only
    rw [if_neg hne]
  · intro seen name p h
    simp [p_declaration, h]
  · intro pre d suf defs fs hids hpre hfresh hcl hdup
    rw [parse_render _ hids]
    refine processDecls_dupfields pre d suf hpre hfresh fs hcl ?_
    intro hwrong
    exact hdup ((duplicated_fields_nil_iff _).mp hwrong)

/-- C5 witness: the general conjuncts evaluated on the spec's example
field list and on the exempt inherit form. -/
theorem C5_duplicate_field_names_witness :
    (p_declaration [] "Pair" none (.list [("x", "int", "NEEDED"), ("x", "int", "NEEDED")]) =
        .error (.duplicateFields "Pair"
          (duplicated_fields
            (([("x", "int", "NEEDED"), ("x", "int", "NEEDED")] : List Field).map
              (fun f => f.1))))) ∧
    p_declaration [] "Node" (some "Base") .inherit = .ok ⟨"Node", some "Base", .inherit⟩ ∧
    Parser.parse (render [⟨"Pair", none, .list [⟨"int", .bare, "x"⟩, ⟨"int", .bare, "x"⟩]⟩]) =
      .error (.duplicateFields "Pair"
        (duplicated_fields
          (([⟨"int", .bare, "x"⟩, ⟨"int", .bare, "x"⟩] : List RawField).map
            RawField.fname))) :=
  ⟨(C5_duplicate_field_names.1 [] "Pair" none
      [("x", "int", "NEEDED"), ("x", "int", "NEEDED")] (by decide) (by decide)).1,
   C5_duplicate_field_names.2.1 [] "Node" "Base" (by decide),
   C5_duplicate_field_names.2.2.1 [] ⟨"Pair", none, .list [⟨"int", .bare, "x"⟩, ⟨"int", .bare, "x"⟩]⟩
     [] [] [⟨"int", .bare, "x"⟩, ⟨"int", .bare, "x"⟩]
     (by decide) (by decide) (by decide) (by decide) (by decide)⟩

/-- C6: for a non-empty Declaration-set the written output is the fixed
preamble, two blank lines, then exactly one generated class per
Definition in input order joined by two blank lines, with a trailing
newline as the file's last character. -/
theorem C6_output_shape (defs : List Definition) (hne : defs ≠ []) :
    output_text defs =
      PREFIX ++ "\n\n\n" ++
        String.intercalate "\n\n\n" (defs.map SourceGenerator.generate_class) ++ "\n" ∧
    (defs.map SourceGenerator.generate_class).length = defs.length ∧
    (output_text defs).data.getLast? = some '\n' := by
  refine ⟨?_, by simp, ?_⟩
  · rw [output_text, generate_sources_eq]
  · rw [output_text]
    have : (PREFIX ++ "\n\n\n" ++ SourceGenerator.generate_sources defs ++ "\n").data =
        (PREFIX ++ "\n\n\n" ++ SourceGenerator.generate_sources defs).data ++ ['\n'] := by
      rw [String.data_append]
    rw [this, List.getLast?_concat]

/-- C6 witness: the output shape evaluated on a one-definition set. -/
theorem C6_output_shape_witness :
    output_text [⟨"A", none, .list []⟩] =
      PREFIX ++ "\n\n\n" ++
        String.intercalate "\n\n\n"
          (([⟨"A", none, .list []⟩] : List Definition).map SourceGenerator.generate_class) ++
        "\n" ∧
    (output_text [⟨"A", none, .list []⟩]).data.getLast? = some '\n' :=
  ⟨(C6_output_shape [⟨"A", none, .list []⟩] (by decide)).1,
   (C6_output_shape [⟨"A", none, .list []⟩] (by decide)).2.2⟩

/-- C7: a declaration with no `:` clause parses with an explicit empty
field list — not the inherit marker, not an error: the empty production
of `colon_fields_opt` yields `list []` whenever no colon follows, the
bare declaration `Leaf` parses to a Definition with empty concrete
fields, and the generator renders such a Definition with an explicit
`return []` body rather than omitting the body. -/
theorem C7_no_colon_empty_fields :
    (∀ toks : List Tok, toks.head? ≠ some Tok.colon →
        p_colon_fields_opt toks = .ok (.list [], toks)) ∧
    Parser.parse "Leaf" = .ok [⟨"Leaf", none, .list []⟩] ∧
    _prettify_list [] = "[]" ∧
    (∀ name : String,
        SourceGenerator.generate_class ⟨name, none, .list []⟩ =
          "class " ++ name ++ "(object):\n" ++
            "    @fields_decorator\n    def _fields(cls):\n        return []") := by
  refine ⟨p_colon_fields_opt_absent, by decide, by decide, ?_⟩
  intro name
  rw [SourceGenerator.generate_class]
  simp [_prettify_list, String.append_assoc]

/-- C7 witness: the empty production and the rendering evaluated at
concrete inputs. -/
theorem C7_no_colon_empty_fields_witness :
    p_colon_fields_opt [Tok.name "B"] = .ok (.list [], [Tok.name "B"]) ∧
    SourceGenerator.generate_class ⟨"Leaf", none, .list []⟩ =
      "class " ++ "Leaf" ++ "(object):\n" ++
        "    @fields_decorator\n    def _fields(cls):\n        return []" :=
  ⟨C7_no_colon_empty_fields.1 [Tok.name "B"] (by decide),
   C7_no_colon_empty_fields.2.2.2 "Leaf"⟩

/-- C8: when the output file already exists and the update flag is false,
the orchestration step leaves it untouched whatever the input text is;
when the flag is true the result never depends on the pre-existing
content — it equals a fresh generation, and in particular is the newly
generated text whenever parsing succeeds. -/
theorem C8_update_flag_frame :
    (∀ (fname old inText : String),
        generate_one false fname (some old) inText = .ok (some old)) ∧
    (∀ (fname old inText : String),
        generate_one true fname (some old) inText = generate_one true fname none inText) ∧
    (∀ (fname old inText : String) (defs : List Definition),
        Parser.parse inText = .ok defs →
        generate_one true fname (some old) inText = .ok (some (output_text defs))) := by
  refine ⟨?_, ?_, ?_⟩
  · intro fname old inText
    rw [generate_one]
    simp
  · intro fname old inText
    rw [generate_one, generate_one]
    simp
  · intro fname old inText defs h
    rw [generate_one]
    simp [h]

/-- C8 witness: the frame and regeneration facts evaluated on a concrete
pre-existing file content and input. -/
theorem C8_update_flag_frame_witness :
    generate_one false "m.tree" (some "old content") "A" = .ok (some "old content") ∧
    generate_one true "m.tree" (some "old content") "A" =
      generate_one true "m.tree" none "A" ∧
    generate_one true "m.tree" (some "old content") "A" =
      .ok (some (output_text [⟨"A", none, .list []⟩])) :=
  ⟨C8_update_flag_frame.1 "m.tree" "old content" "A",
   C8_update_flag_frame.2.1 "m.tree" "old content" "A",
   C8_update_flag_frame.2.2 "m.tree" "old content" "A" [⟨"A", none, .list []⟩] (by decide)⟩

end NodeGen
